import Mathlib

/-!
Verification of the ldk-boss channel-management daemon against its
natural-language specification.

Each Rust function relevant to a claim is shallowly embedded as a Lean
definition.  Machine integers (`u32`, `u64`, `i32`, `i64`, `usize`) are
modelled as `Nat` / `Int`; `f64` arithmetic is modelled over `ℚ`, with the
Rust `as` casts made explicit (truncation toward zero, saturation of
negative values at zero).  Database tables are modelled as lists of rows,
and SQL statements as the corresponding list operations.
-/

/-! ## Rust numeric cast helpers -/

/-- Rust `as usize` / `as u64` applied to a non-negative-or-negative `f64`
value (modelled as `ℚ`): truncation toward zero, with negative values
saturating to `0`.  For non-negative rationals this is exactly `⌊q⌋`. -/
def rustCastNat (q : ℚ) : Nat := (⌊q⌋).toNat

/-- Rust `f64::round` (round half away from zero) followed by `as usize`,
for the non-negative values that arise in this code base. -/
def rustRoundNat (q : ℚ) : Nat := (⌊q + 1/2⌋).toNat

/-- Rust `Int::clamp lo hi` (for `lo ≤ hi`). -/
def rustClampInt (x lo hi : Int) : Int := min (max x lo) hi

/-! ## Autopilot opener (`src/autopilot/opener.rs`) -/

/-- A channel-open candidate (`autopilot/candidate.rs`); only the fields
`plan_opens` reads are carried. -/
structure Candidate where
  nodeId : String
  address : String
deriving DecidableEq, Repr

/-- A planned channel open (`opener.rs`, `struct PlannedOpen`). -/
structure PlannedOpen where
  candidate : Candidate
  amountSats : Nat
deriving DecidableEq, Repr

/-- The autopilot configuration fields read by `plan_opens` and
`should_open` (`config.rs`, `AutopilotConfig`). -/
structure AutopilotCfg where
  minChannelSats : Nat
  maxChannelSats : Nat
  onchainReserveSats : Nat
  minOnchainPercent : ℚ
  maxOnchainPercent : ℚ
deriving Repr

/-- The loop body of `plan_opens` (`opener.rs` lines 31-62).  The list
argument is the not-yet-visited prefix of the candidate list (the Rust
code indexes `candidates[i]` for `i < num_to_open`); the `Nat` argument is
`num_to_open - i`, so that `slots_left = num_to_open - i` is the successor
pattern. -/
def planOpensGo (minC maxC budget : Nat) :
    List Candidate → Nat → Nat → List PlannedOpen
  | _, 0, _ => []
  | [], _, _ => []
  | c :: rest, slots + 1, remaining =>
    if remaining < minC then []
    else if c.address = "" then planOpensGo minC maxC budget rest slots remaining
    else
      let per := remaining / max (slots + 1) 1
      let amount := min (min (max per minC) maxC) remaining
      let amount2 := max (min amount (budget / 2)) minC
      if amount2 < minC then []
      else
        ⟨c, amount2⟩ :: planOpensGo minC maxC budget rest slots (remaining - amount2)

/-- `plan_opens` (`opener.rs` lines 20-65): distribute `budget_sats` over
the first `min max_proposals candidates.length` candidates. -/
def plan_opens (cfg : AutopilotCfg) (candidates : List Candidate)
    (budgetSats : Nat) (maxProposals : Nat) : List PlannedOpen :=
  let numToOpen := min maxProposals candidates.length
  planOpensGo cfg.minChannelSats cfg.maxChannelSats budgetSats
    (candidates.take numToOpen) numToOpen budgetSats

/-! ## Balance modder (`src/fees/balance_modder.rs`) -/

/-- `get_num_bins`: number of bins from channel size and preferred bin
size (`balance_modder.rs` lines 34-40). -/
def get_num_bins (channelSats preferredBinSizeSats : Nat) : Nat :=
  if preferredBinSizeSats = 0 then 4
  else
    let raw := rustRoundNat ((channelSats : ℚ) / (preferredBinSizeSats : ℚ))
    min (max raw 4) 50

/-- `get_bin` (`balance_modder.rs` lines 43-45). -/
def get_bin (ourRatio : ℚ) (numBins : Nat) : ℚ := ourRatio * (numBins : ℚ)

/-- `get_ratio_by_bin` (`balance_modder.rs` lines 25-30).  The Rust
function asserts `bin < num_bins` and applies the exponential curve
`get_ratio` to the bin centre `(1 + 2 bin) / (2 num_bins)`.  The assertion
is modelled by returning `none` when it would fail; since `get_ratio` is a
total, strictly monotone real function, the value is modelled by the bin
centre it is applied to. -/
def get_ratio_by_bin (bin numBins : Nat) : Option ℚ :=
  if bin < numBins then some (((1 + bin * 2 : Nat) : ℚ) / ((numBins * 2 : Nat) : ℚ))
  else none

/-- `get_ratio_binned` (`balance_modder.rs` lines 51-60): clamp the ratio
into `[0, 1]`, quantize into a bin, cap the bin index at `num_bins - 1`,
and look up the bin centre. -/
def get_ratio_binned (ourRatio : ℚ) (channelSats preferredBinSizeSats : Nat) :
    Option ℚ :=
  let numBins := get_num_bins channelSats preferredBinSizeSats
  let actualBin := get_bin (min (max ourRatio 0) 1) numBins
  let bin := min (rustCastNat actualBin) (numBins - 1)
  get_ratio_by_bin bin numBins

/-! ## Fee controller clamp (`src/fees/mod.rs`) -/

/-- `ABS_MIN_FEE_PPM` (`fees/mod.rs` line 12). -/
def ABS_MIN_FEE_PPM : Nat := 1

/-- `ABS_MAX_FEE_PPM` (`fees/mod.rs` line 13). -/
def ABS_MAX_FEE_PPM : Nat := 50000

/-- Rust `as u32` applied to an `f64` product (modelled over `ℚ`):
truncation toward zero, negative values saturate to `0`, values above
`2^32 - 1` saturate to `2^32 - 1`. -/
def rustCastU32 (q : ℚ) : Nat := min ((⌊q⌋).toNat) (2 ^ 32 - 1)

/-- The per-channel proportional-fee computation of the fee controller
(`fees/mod.rs` lines 59-66): `combined = balance_mult * price_mult`,
`ppm = (default_ppm as f64 * combined) as u32`, then
`ppm.max(ABS_MIN_FEE_PPM).min(ABS_MAX_FEE_PPM)`. -/
def computePpm (defaultPpm : Nat) (balanceMult priceMult : ℚ) : Nat :=
  let combined := balanceMult * priceMult
  let ppm := rustCastU32 ((defaultPpm : ℚ) * combined)
  min (max ppm ABS_MIN_FEE_PPM) ABS_MAX_FEE_PPM

/-! ### Claim C1 -/

/-- The configuration used in the C1 evidence: `min_channel_sats =
100000` (the default, and above the validated lower bound of `20000`),
`max_channel_sats = 1000000`. -/
def c1Cfg : AutopilotCfg :=
  { minChannelSats := 100000
    maxChannelSats := 1000000
    onchainReserveSats := 30000
    minOnchainPercent := 10
    maxOnchainPercent := 25 }

/-- Claim C1 is false on the code: with `min_channel_sats = 100000`, one
addressed candidate, `budget_sats = 150000` and `max_proposals = 1`,
`plan_opens` plans a single open of `100000` sats, which exceeds
`budget_sats / 2 = 75000`; the planner does not stop even though the
capped amount `75000` is below `min_channel_sats`.  The cause is that
`opener.rs` line 50 applies `.max(min_channel_sats)` after the
`.min(budget_sats / 2)` cap, contradicting the comment directly above it
("Hard safety limit: no single channel > 50% of total budget") and making
the `amount < min_channel_sats` stop at line 52 unreachable. -/
theorem c1_half_budget_cap_violated :
    (plan_opens c1Cfg [⟨"a", "1.2.3.4:9735"⟩] 150000 1).map
        (fun o => o.amountSats) = [100000]
    ∧ 150000 / 2 = 75000
    ∧ 75000 < 100000 := by
  refine ⟨?_, by norm_num, by norm_num⟩
  rfl

/-! ### Claim C9 -/

/-- Claim C9: `get_ratio_binned` is total.  For every ratio (clamping
handles values outside `[0, 1]`), channel size and preferred bin size
(including `0`), the number of bins lies in `[4, 50]` and the bin index
passed to `get_ratio_by_bin` is strictly below it, so the assertion in
`get_ratio_by_bin` never fails (the result is always `some _`). -/
theorem c9_get_ratio_binned_total (ourRatio : ℚ)
    (channelSats preferredBinSizeSats : Nat) :
    4 ≤ get_num_bins channelSats preferredBinSizeSats
    ∧ get_num_bins channelSats preferredBinSizeSats ≤ 50
    ∧ (get_ratio_binned ourRatio channelSats preferredBinSizeSats).isSome := by
  have hbins : 4 ≤ get_num_bins channelSats preferredBinSizeSats
      ∧ get_num_bins channelSats preferredBinSizeSats ≤ 50 := by
    unfold get_num_bins
    by_cases h : preferredBinSizeSats = 0
    · simp [h]
    · simp [h]
  refine ⟨hbins.1, hbins.2, ?_⟩
  unfold get_ratio_binned get_ratio_by_bin
  have h4 := hbins.1
  have hlt : min (rustCastNat (get_bin (min (max ourRatio 0) 1)
      (get_num_bins channelSats preferredBinSizeSats)))
      (get_num_bins channelSats preferredBinSizeSats - 1)
      < get_num_bins channelSats preferredBinSizeSats := by
    have : get_num_bins channelSats preferredBinSizeSats - 1
        < get_num_bins channelSats preferredBinSizeSats := by omega
    exact lt_of_le_of_lt (min_le_right _ _) this
  simp [hlt]

/-! ### Claim C3 -/

/-- Claim C3: for every usable channel with positive capacity, the
proportional fee submitted by the fee controller lies in
`[1, 50000]` ppm, for all configuration defaults and all balance and
price-theory multiplier values. -/
theorem c3_ppm_clamped (defaultPpm : Nat) (balanceMult priceMult : ℚ) :
    1 ≤ computePpm defaultPpm balanceMult priceMult
    ∧ computePpm defaultPpm balanceMult priceMult ≤ 50000 := by
  unfold computePpm ABS_MIN_FEE_PPM ABS_MAX_FEE_PPM
  constructor
  · exact le_min (le_max_right _ _) (by norm_num)
  · exact min_le_right _ _

/-! ## Channel and channel-config records (`ldk_server_protos::types`) -/

/-- The channel-config message (`ChannelConfig`).  The
`max_dust_htlc_exposure` payload is an opaque message that the fee setter
only clones verbatim; it is modelled by an abstract `Option Nat` token. -/
structure ChannelCfg where
  forwardingFeeBaseMsat : Option Nat
  forwardingFeeProportionalMillionths : Option Nat
  cltvExpiryDelta : Option Nat
  forceCloseAvoidanceMaxFeeSatoshis : Option Nat
  acceptUnderpayingHtlcs : Option Bool
  maxDustHtlcExposure : Option Nat
deriving DecidableEq, Repr

/-- A channel record from `ListChannels`, restricted to the fields the
embedded functions read. -/
structure Channel where
  channelId : String
  userChannelId : String
  counterpartyNodeId : String
  channelValueSats : Nat
  outboundCapacityMsat : Nat
  isUsable : Bool
  channelConfig : Option ChannelCfg
deriving DecidableEq, Repr

/-- The `UpdateChannelConfig` RPC request body. -/
structure UpdateChannelConfigRequest where
  userChannelId : String
  counterpartyNodeId : String
  channelConfig : Option ChannelCfg
deriving DecidableEq, Repr

/-! ## Fee setter (`src/fees/setter.rs`) -/

/-- `apply_if_changed` (`setter.rs` lines 8-63).  The issued RPC request
is the observable effect: `none` means no `UpdateChannelConfig` request
was sent. -/
def apply_if_changed (dryRun : Bool) (channel : Channel)
    (newBaseMsat newPpm : Nat) : Option UpdateChannelConfigRequest :=
  let current := channel.channelConfig
  let currentBase := (current.bind (fun c => c.forwardingFeeBaseMsat)).getD 0
  let currentPpm :=
    (current.bind (fun c => c.forwardingFeeProportionalMillionths)).getD 0
  if currentBase = newBaseMsat ∧ currentPpm = newPpm then none
  else if dryRun then none
  else some
    { userChannelId := channel.userChannelId
      counterpartyNodeId := channel.counterpartyNodeId
      channelConfig := some
        { forwardingFeeBaseMsat := some newBaseMsat
          forwardingFeeProportionalMillionths := some newPpm
          cltvExpiryDelta := current.bind (fun c => c.cltvExpiryDelta)
          forceCloseAvoidanceMaxFeeSatoshis :=
            current.bind (fun c => c.forceCloseAvoidanceMaxFeeSatoshis)
          acceptUnderpayingHtlcs := current.bind (fun c => c.acceptUnderpayingHtlcs)
          maxDustHtlcExposure := current.bind (fun c => c.maxDustHtlcExposure) } }

/-! ### Claim C4 -/

/-- A concrete channel whose published proportional fee is `5` ppm. -/
def c4Channel : Channel :=
  { channelId := "ch"
    userChannelId := "uch"
    counterpartyNodeId := "peer"
    channelValueSats := 1000000
    outboundCapacityMsat := 500000000
    isUsable := true
    channelConfig := some
      { forwardingFeeBaseMsat := some 1000
        forwardingFeeProportionalMillionths := some 5
        cltvExpiryDelta := some 72
        forceCloseAvoidanceMaxFeeSatoshis := none
        acceptUnderpayingHtlcs := some false
        maxDustHtlcExposure := none } }

/-- Claim C4 as stated is false on the code: with `dry_run = true` the
new pair `(1000, 6)` differs from the published pair `(1000, 5)`, yet
`apply_if_changed` issues no request (`setter.rs` lines 40-43 return
before building the request). -/
theorem c4_counterexample_dry_run :
    apply_if_changed true c4Channel 1000 6 = none
    ∧ ¬((c4Channel.channelConfig.bind
          (fun c => c.forwardingFeeBaseMsat)).getD 0 = 1000
        ∧ (c4Channel.channelConfig.bind
          (fun c => c.forwardingFeeProportionalMillionths)).getD 0 = 6) := by
  constructor
  · rfl
  · decide

/-- Claim C4, amended for dry-run mode: `apply_if_changed` issues an
`UpdateChannelConfig` request if and only if the new `(base_msat, ppm)`
pair differs from the published pair (absent fields read as `0`) and
`general.dry_run` is disabled; when it does issue a request, the request
keeps the channel identity fields, sets the two fee fields, and copies
every other config field from the channel unchanged. -/
theorem c4_apply_if_changed_amended (dryRun : Bool) (channel : Channel)
    (newBaseMsat newPpm : Nat) :
    ((apply_if_changed dryRun channel newBaseMsat newPpm).isSome ↔
      (¬((channel.channelConfig.bind
            (fun c => c.forwardingFeeBaseMsat)).getD 0 = newBaseMsat
          ∧ (channel.channelConfig.bind
            (fun c => c.forwardingFeeProportionalMillionths)).getD 0 = newPpm)
        ∧ dryRun = false))
    ∧ (∀ req, apply_if_changed dryRun channel newBaseMsat newPpm = some req →
        req.userChannelId = channel.userChannelId
        ∧ req.counterpartyNodeId = channel.counterpartyNodeId
        ∧ req.channelConfig = some
          { forwardingFeeBaseMsat := some newBaseMsat
            forwardingFeeProportionalMillionths := some newPpm
            cltvExpiryDelta := channel.channelConfig.bind (fun c => c.cltvExpiryDelta)
            forceCloseAvoidanceMaxFeeSatoshis :=
              channel.channelConfig.bind
                (fun c => c.forceCloseAvoidanceMaxFeeSatoshis)
            acceptUnderpayingHtlcs :=
              channel.channelConfig.bind (fun c => c.acceptUnderpayingHtlcs)
            maxDustHtlcExposure :=
              channel.channelConfig.bind (fun c => c.maxDustHtlcExposure) }) := by
  unfold apply_if_changed
  by_cases h1 : (channel.channelConfig.bind
        (fun c => c.forwardingFeeBaseMsat)).getD 0 = newBaseMsat
      ∧ (channel.channelConfig.bind
        (fun c => c.forwardingFeeProportionalMillionths)).getD 0 = newPpm
  · simp [h1]
  · cases dryRun
    · simp [h1]
    · simp [h1]

/-- Witness for C4: the amended theorem applied at `dry_run = false`,
`c4Channel`, new pair `(1000, 6)`. -/
theorem c4_amended_witness :
    ((apply_if_changed false c4Channel 1000 6).isSome ↔
      (¬((c4Channel.channelConfig.bind
            (fun c => c.forwardingFeeBaseMsat)).getD 0 = 1000
          ∧ (c4Channel.channelConfig.bind
            (fun c => c.forwardingFeeProportionalMillionths)).getD 0 = 6)
        ∧ false = false))
    ∧ (∀ req, apply_if_changed false c4Channel 1000 6 = some req →
        req.userChannelId = c4Channel.userChannelId
        ∧ req.counterpartyNodeId = c4Channel.counterpartyNodeId
        ∧ req.channelConfig = some
          { forwardingFeeBaseMsat := some 1000
            forwardingFeeProportionalMillionths := some 6
            cltvExpiryDelta := c4Channel.channelConfig.bind (fun c => c.cltvExpiryDelta)
            forceCloseAvoidanceMaxFeeSatoshis :=
              c4Channel.channelConfig.bind
                (fun c => c.forceCloseAvoidanceMaxFeeSatoshis)
            acceptUnderpayingHtlcs :=
              c4Channel.channelConfig.bind (fun c => c.acceptUnderpayingHtlcs)
            maxDustHtlcExposure :=
              c4Channel.channelConfig.bind (fun c => c.maxDustHtlcExposure) }) :=
  c4_apply_if_changed_amended false c4Channel 1000 6

/-! ## Node-state aggregates and autopilot decider
(`src/state.rs`, `src/autopilot/decider.rs`) -/

/-- The balances returned by `GetBalances`, restricted to the fields the
decider reads. -/
structure Balances where
  spendableOnchainBalanceSats : Nat
  totalOnchainBalanceSats : Nat
  totalLightningBalanceSats : Nat
deriving DecidableEq, Repr

/-- `NodeState::total_funds_sats` (`state.rs` lines 41-43). -/
def total_funds_sats (b : Balances) : Nat :=
  b.totalOnchainBalanceSats + b.totalLightningBalanceSats

/-- `NodeState::onchain_percent` (`state.rs` lines 46-52): defined as
`100` when the total is zero. -/
def onchain_percent (b : Balances) : ℚ :=
  if total_funds_sats b = 0 then 100
  else (b.spendableOnchainBalanceSats : ℚ) / ((total_funds_sats b : Nat) : ℚ) * 100

/-- The on-chain fee regime (`tracker/onchain_fees.rs` lines 8-11). -/
inductive FeeRegime
  | Low
  | High
deriving DecidableEq, Repr

/-- `should_open` (`decider.rs` lines 17-95).  The fee regime, which the
Rust code obtains from `current_regime` over the database, is passed as
the already-computed value. -/
def should_open (cfg : AutopilotCfg) (balances : Balances)
    (regime : FeeRegime) : Option Nat :=
  let onchain := balances.spendableOnchainBalanceSats
  let reserve := cfg.onchainReserveSats
  if onchain ≤ reserve then none
  else
    let available := onchain - reserve
    if available < cfg.minChannelSats then none
    else
      let pct := onchain_percent balances
      let totalFunds := total_funds_sats balances
      if totalFunds = 0 then none
      else if pct < cfg.minOnchainPercent then none
      else
        match regime with
        | .Low => some available
        | .High =>
          if cfg.maxOnchainPercent < pct then some available else none

/-! ### Claim C6 -/

/-- Claim C6: `should_open` returns
`some (spendable_onchain - reserve)` exactly when the spendable on-chain
balance exceeds the reserve, the difference meets `min_channel_sats`, the
total funds are positive, the on-chain percentage is at least
`min_onchain_percent`, and the regime is Low or (High with the on-chain
percentage above `max_onchain_percent`); in every other case it returns
`none`. -/
theorem c6_should_open_spec (cfg : AutopilotCfg) (balances : Balances)
    (regime : FeeRegime) :
    should_open cfg balances regime =
      if cfg.onchainReserveSats < balances.spendableOnchainBalanceSats
          ∧ cfg.minChannelSats ≤
              balances.spendableOnchainBalanceSats - cfg.onchainReserveSats
          ∧ 0 < total_funds_sats balances
          ∧ cfg.minOnchainPercent ≤ onchain_percent balances
          ∧ (regime = .Low
              ∨ (regime = .High
                  ∧ cfg.maxOnchainPercent < onchain_percent balances))
      then some (balances.spendableOnchainBalanceSats - cfg.onchainReserveSats)
      else none := by
  unfold should_open
  by_cases hA : balances.spendableOnchainBalanceSats ≤ cfg.onchainReserveSats
  · rw [if_pos hA, if_neg]
    intro h
    exact absurd h.1 (not_lt.mpr hA)
  · rw [if_neg hA]
    by_cases hB : balances.spendableOnchainBalanceSats - cfg.onchainReserveSats
        < cfg.minChannelSats
    · rw [if_pos hB, if_neg]
      intro h
      exact absurd h.2.1 (not_le.mpr hB)
    · rw [if_neg hB]
      by_cases hC : total_funds_sats balances = 0
      · rw [if_pos hC, if_neg]
        intro h
        omega
      · rw [if_neg hC]
        by_cases hD : onchain_percent balances < cfg.minOnchainPercent
        · rw [if_pos hD, if_neg]
          intro h
          exact absurd h.2.2.2.1 (not_le.mpr hD)
        · rw [if_neg hD]
          rcases regime with _ | _
          · dsimp only
            rw [if_pos]
            exact ⟨not_le.mp hA, not_lt.mp hB, Nat.pos_of_ne_zero hC,
              not_lt.mp hD, Or.inl rfl⟩
          · dsimp only
            by_cases hE : cfg.maxOnchainPercent < onchain_percent balances
            · rw [if_pos hE, if_pos]
              exact ⟨not_le.mp hA, not_lt.mp hB, Nat.pos_of_ne_zero hC,
                not_lt.mp hD, Or.inr ⟨rfl, hE⟩⟩
            · rw [if_neg hE, if_neg]
              intro h
              rcases h.2.2.2.2 with h5 | h5
              · exact FeeRegime.noConfusion h5
              · exact hE h5.2

/-! ## Fee-regime detector (`src/tracker/onchain_fees.rs`) -/

/-- `current_regime` (`onchain_fees.rs` lines 66-128).  The three SQL
query results are the inputs: `feerates` is the sample set ordered
ascending by feerate, `latest` the feerate of the row with the greatest
`sampled_at` (the `unwrap_or(0.0)` default is irrelevant because it is
only read when the set is non-empty), and `saved` the `run_state` value
for key `fee_regime` (absent row modelled as `none`). -/
def current_regime (hiToLoPct loToHiPct : ℚ) (feerates : List ℚ)
    (latest : ℚ) (saved : Option String) : FeeRegime :=
  if feerates.isEmpty then .High
  else
    let n := feerates.length
    let loIdx := rustCastNat (hiToLoPct / 100 * (n : ℚ))
    let hiIdx := rustCastNat (loToHiPct / 100 * (n : ℚ))
    let loThreshold := feerates.getD (min loIdx (n - 1)) 0
    let hiThreshold := feerates.getD (min hiIdx (n - 1)) 0
    if latest ≤ loThreshold then .Low
    else if hiThreshold ≤ latest then .High
    else if saved.getD "high" = "low" then .Low else .High

/-- `save_regime` (`onchain_fees.rs` lines 131-141): the string written
to `run_state` for each regime. -/
def save_regime_value : FeeRegime → String
  | .Low => "low"
  | .High => "high"

/-! ### Claim C5 -/

/-- For thresholds in `[0, 100)` the percentile index is in range, so the
defensive `.min(n - 1)` of `onchain_fees.rs` lines 105-106 is the
identity and the index is exactly `floor(pct * n / 100)`. -/
theorem percentileIdx_min_eq (pct : ℚ) (n : Nat) (hn : 1 ≤ n)
    (_h0 : 0 ≤ pct) (h1 : pct < 100) :
    min (rustCastNat (pct / 100 * (n : ℚ))) (n - 1)
      = rustCastNat (pct * (n : ℚ) / 100) := by
  have harith : pct / 100 * (n : ℚ) = pct * (n : ℚ) / 100 := by ring
  rw [harith, min_eq_left]
  unfold rustCastNat
  have hlt : pct * (n : ℚ) / 100 < (n : ℚ) := by
    rw [div_lt_iff₀ (by norm_num : (0 : ℚ) < 100)]
    have hnpos : (0 : ℚ) < (n : ℚ) := by
      exact_mod_cast Nat.lt_of_lt_of_le Nat.zero_lt_one hn
    calc pct * (n : ℚ) < 100 * (n : ℚ) := by
          exact mul_lt_mul_of_pos_right h1 hnpos
      _ = (n : ℚ) * 100 := by ring
  have hfl : ⌊pct * (n : ℚ) / 100⌋ < (n : Int) := by
    rw [Int.floor_lt]
    push_cast
    exact hlt
  omega

/-- Claim C5: `current_regime` returns High on an empty sample set;
otherwise, with `lo = samples[floor(hi_to_lo_pct * n / 100)]` and
`hi = samples[floor(lo_to_hi_pct * n / 100)]` over the ascending-sorted
samples, it returns Low when the latest feerate is at most `lo`, High
when it is at least `hi`, and otherwise the persisted regime from
`run_state` (any value other than the string written for Low, including
an absent row, reads as High). -/
theorem c5_current_regime_spec (hiToLoPct loToHiPct : ℚ) (feerates : List ℚ)
    (latest : ℚ) (saved : Option String)
    (hlo0 : 0 ≤ hiToLoPct) (hlo1 : hiToLoPct < 100)
    (hhi0 : 0 ≤ loToHiPct) (hhi1 : loToHiPct < 100) :
    current_regime hiToLoPct loToHiPct [] latest saved = .High
    ∧ (feerates ≠ [] →
        current_regime hiToLoPct loToHiPct feerates latest saved =
          (let lo := feerates.getD
              (rustCastNat (hiToLoPct * (feerates.length : ℚ) / 100)) 0
           let hi := feerates.getD
              (rustCastNat (loToHiPct * (feerates.length : ℚ) / 100)) 0
           if latest ≤ lo then .Low
           else if hi ≤ latest then .High
           else if saved.getD "high" = "low" then .Low else .High)) := by
  constructor
  · rfl
  · intro hne
    have hn : 1 ≤ feerates.length := List.length_pos.mpr hne
    unfold current_regime
    rw [if_neg (by simp [List.isEmpty_iff, hne])]
    dsimp only
    rw [percentileIdx_min_eq hiToLoPct feerates.length hn hlo0 hlo1,
      percentileIdx_min_eq loToHiPct feerates.length hn hhi0 hhi1]

/-- Witness for C5: five samples `[1, 2, 3, 4, 5]`, latest `5`, default
thresholds `17` and `23`, no persisted regime.  Both indices are
`floor(17 * 5 / 100) = 0` and `floor(23 * 5 / 100) = 1`, so `lo = 1`,
`hi = 2`, and the latest sample `5 ≥ hi` yields High. -/
theorem c5_current_regime_witness :
    current_regime 17 23 [] (5 : ℚ) none = .High
    ∧ (([1, 2, 3, 4, 5] : List ℚ) ≠ [] →
        current_regime 17 23 [1, 2, 3, 4, 5] 5 none =
          (let lo := ([1, 2, 3, 4, 5] : List ℚ).getD
              (rustCastNat (17 * (([1, 2, 3, 4, 5] : List ℚ).length : ℚ) / 100)) 0
           let hi := ([1, 2, 3, 4, 5] : List ℚ).getD
              (rustCastNat (23 * (([1, 2, 3, 4, 5] : List ℚ).length : ℚ) / 100)) 0
           if (5 : ℚ) ≤ lo then .Low
           else if hi ≤ 5 then .High
           else if ((none : Option String)).getD "high" = "low" then .Low
           else .High)) :=
  c5_current_regime_spec 17 23 [1, 2, 3, 4, 5] 5 none
    (by norm_num) (by norm_num) (by norm_num) (by norm_num)

/-! ## Peer-judge weighted median (`src/judge/algo.rs`) -/

/-- The cumulative-weight loop of `weighted_median` (`algo.rs` lines
119-125): add each weight to the accumulator and return the value of the
first pair at which the accumulator reaches `half`. -/
def wmWalk (half : ℚ) : ℚ → List (ℚ × ℚ) → Option ℚ
  | _, [] => none
  | cum, vw :: rest =>
    let c := cum + vw.2
    if half ≤ c then some vw.1 else wmWalk half c rest

/-- `weighted_median` (`algo.rs` lines 108-129): `0` on an empty list,
the sole value on a singleton, otherwise the walk result, falling back to
the last value if the walk never reaches `half`. -/
def weighted_median (data : List (ℚ × ℚ)) : ℚ :=
  if data.isEmpty then 0
  else if data.length = 1 then (data.headD (0, 0)).1
  else
    let total := (data.map Prod.snd).sum
    let half := total / 2
    match wmWalk half 0 data with
    | some v => v
    | none => (data.getLast?.getD (0, 0)).1

/-- Modelled from the claim text: the index of the first pair at which
the cumulative weight (the sum of the weights of the pairs up to and
including it) reaches half of the total weight. -/
def firstHalfIdx (data : List (ℚ × ℚ)) : Option Nat :=
  (List.range data.length).find? fun k =>
    decide ((data.map Prod.snd).sum / 2 ≤ ((data.take (k + 1)).map Prod.snd).sum)

/-- `List.find?` respects pointwise-equal predicates. -/
theorem find?_congr_members {α : Type} (p q : α → Bool) :
    ∀ l : List α, (∀ a ∈ l, p a = q a) → l.find? p = l.find? q
  | [], _ => rfl
  | a :: t, h => by
    simp only [List.find?]
    rw [h a (List.mem_cons_self a t)]
    cases hq : q a
    · exact find?_congr_members p q t fun x hx => h x (List.mem_cons_of_mem a hx)
    · rfl

/-- The implementation walk agrees with the first-index-reaching-half
reading, for every accumulator value. -/
theorem wmWalk_eq_firstIdx (half : ℚ) :
    ∀ (data : List (ℚ × ℚ)) (cum : ℚ),
      wmWalk half cum data =
        (((List.range data.length).find? fun k =>
            decide (half ≤ cum + ((data.take (k + 1)).map Prod.snd).sum)).map
          fun k => (data.getD k (0, 0)).1)
  | [], cum => rfl
  | vw :: rest, cum => by
    simp only [wmWalk, List.length_cons, List.range_succ_eq_map, List.find?]
    by_cases h0 : half ≤ cum + vw.2
    · rw [if_pos h0]
      have hp : decide (half ≤ cum
          + (((vw :: rest).take (0 + 1)).map Prod.snd).sum) = true := by
        simp [h0]
      rw [hp]
      simp
    · rw [if_neg h0]
      have hp : decide (half ≤ cum
          + (((vw :: rest).take (0 + 1)).map Prod.snd).sum) = false := by
        simp [h0]
      rw [hp]
      rw [List.find?_map]
      rw [wmWalk_eq_firstIdx half rest (cum + vw.2)]
      rw [Option.map_map]
      have hpred : ∀ k ∈ List.range rest.length,
          ((fun k => decide (half ≤ cum
              + (((vw :: rest).take (k + 1)).map Prod.snd).sum)) ∘ Nat.succ) k
            = (fun k => decide (half ≤ (cum + vw.2)
              + ((rest.take (k + 1)).map Prod.snd).sum)) k := by
        intro k _
        simp only [Function.comp_apply, List.take_succ_cons, List.map_cons,
          List.sum_cons]
        rw [decide_eq_decide]
        constructor <;> intro h <;> linarith
      rw [find?_congr_members _ _ _ hpred]
      congr 1

/-- Claim C7: for every non-empty ascending-sorted list of
(value, weight) pairs with non-negative weights, `weighted_median`
returns the value of the first pair at which the cumulative weight
reaches half of the total weight, and in particular
`wm [(1,10),(2,1),(3,1)] = 1` and `wm [(1,1),(2,1),(3,1)] = 2`. -/
theorem c7_weighted_median_spec (data : List (ℚ × ℚ))
    (hne : data ≠ [])
    (hsorted : data.Chain' fun a b => a.1 ≤ b.1)
    (hw : ∀ vw ∈ data, 0 ≤ vw.2) :
    (∃ k, firstHalfIdx data = some k
        ∧ weighted_median data = (data.getD k (0, 0)).1)
    ∧ weighted_median [((1 : ℚ), (10 : ℚ)), (2, 1), (3, 1)] = 1
    ∧ weighted_median [((1 : ℚ), (1 : ℚ)), (2, 1), (3, 1)] = 2 := by
  refine ⟨?_, by norm_num [weighted_median, wmWalk], by norm_num [weighted_median, wmWalk]⟩
  have htot : 0 ≤ (data.map Prod.snd).sum := by
    apply List.sum_nonneg
    intro x hx
    rcases List.mem_map.mp hx with ⟨vw, hvw, rfl⟩
    exact hw vw hvw
  have hfirst : firstHalfIdx data =
      ((List.range data.length).find? fun k =>
        decide ((data.map Prod.snd).sum / 2
          ≤ 0 + ((data.take (k + 1)).map Prod.snd).sum)) := by
    unfold firstHalfIdx
    apply find?_congr_members
    intro k _
    simp
  have hsomeIdx : ∃ k, firstHalfIdx data = some k := by
    have hlast : ∃ x ∈ List.range data.length,
        (fun k => decide ((data.map Prod.snd).sum / 2
          ≤ ((data.take (k + 1)).map Prod.snd).sum)) x = true := by
      refine ⟨data.length - 1, ?_, ?_⟩
      · have : 1 ≤ data.length := List.length_pos.mpr hne
        exact List.mem_range.mpr (by omega)
      · have h1 : data.length - 1 + 1 = data.length := by
          have : 1 ≤ data.length := List.length_pos.mpr hne
          omega
        simp only [decide_eq_true_eq]
        rw [h1, List.take_length]
        linarith
    have := (@List.find?_isSome Nat (List.range data.length)
      (fun k => decide ((data.map Prod.snd).sum / 2
        ≤ ((data.take (k + 1)).map Prod.snd).sum))).mpr hlast
    unfold firstHalfIdx
    exact Option.isSome_iff_exists.mp this
  rcases hsomeIdx with ⟨k, hk⟩
  refine ⟨k, hk, ?_⟩
  unfold weighted_median
  rw [if_neg (by simp [List.isEmpty_iff, hne])]
  by_cases hlen : data.length = 1
  · rw [if_pos hlen]
    rcases data with _ | ⟨vw, rest⟩
    · exact absurd rfl hne
    · have hrest : rest = [] := by
        simpa [List.length_eq_zero] using hlen
      subst hrest
      have hk0 : k = 0 := by
        have := hk
        unfold firstHalfIdx at this
        simp only [List.length_cons, List.length_nil, List.range_succ_eq_map,
          List.range_zero, List.map_nil, List.find?] at this
        rcases hdec : decide ((([vw].map Prod.snd).sum : ℚ) / 2
            ≤ (([vw].take (0 + 1)).map Prod.snd).sum) with _ | _
        · rw [hdec] at this
          simp at this
        · rw [hdec] at this
          simp at this
          omega
      subst hk0
      simp
  · rw [if_neg hlen]
    dsimp only
    rw [wmWalk_eq_firstIdx]
    rw [← hfirst] at *
    rw [hk]
    simp

/-! ## Channel-lifecycle tracker (`src/tracker/channels.rs`) -/

/-- A `channel_history` row (schema in `db.rs`). -/
structure HistRow where
  channelId : String
  userChannelId : String
  counterpartyNodeId : String
  channelValueSats : Nat
  firstSeenAt : ℚ
  lastSeenAt : ℚ
  isOpen : Bool
deriving DecidableEq, Repr

/-- The per-snapshot-channel body of the loop in `channels.rs` lines
23-54: for a known-open id, `UPDATE ... SET last_seen_at`; otherwise
`INSERT OR REPLACE` a fresh open row (REPLACE removes any existing row
with the same primary-key `channel_id`). -/
def channelStep (now : ℚ) (knownOpen : List String)
    (hist : List HistRow) (ch : Channel) : List HistRow :=
  if knownOpen.contains ch.channelId then
    hist.map fun r =>
      if r.channelId = ch.channelId then { r with lastSeenAt := now } else r
  else
    hist.filter (fun r => r.channelId ≠ ch.channelId)
      ++ [⟨ch.channelId, ch.userChannelId, ch.counterpartyNodeId,
            ch.channelValueSats, now, now, true⟩]

/-- `tracker::channels::update` (`channels.rs` lines 7-74): `known_open`
is read first, each snapshot channel is processed in order, then every
known-open id absent from the snapshot is marked closed. -/
def channels_update (now : ℚ) (hist : List HistRow)
    (channels : List Channel) : List HistRow :=
  let knownOpen := (hist.filter (fun r => r.isOpen)).map (fun r => r.channelId)
  let seen := channels.map (fun ch => ch.channelId)
  let hist1 := channels.foldl (channelStep now knownOpen) hist
  hist1.map fun r =>
    if knownOpen.contains r.channelId && !(seen.contains r.channelId) then
      { r with isOpen := false, lastSeenAt := now }
    else r

/-- Members of a list with a duplicate-free key projection are equal
whenever their keys are equal. -/
theorem map_nodup_key_inj {α β : Type} {key : α → β} :
    ∀ {l : List α}, (l.map key).Nodup →
      ∀ {a b : α}, a ∈ l → b ∈ l → key a = key b → a = b := by
  intro l
  induction l with
  | nil => intro _ a b ha; cases ha
  | cons x t ih =>
    intro h a b ha hb hk
    rw [List.map_cons, List.nodup_cons] at h
    rcases List.mem_cons.mp ha with rfl | ha2
    · rcases List.mem_cons.mp hb with rfl | hb2
      · rfl
      · exact absurd (hk ▸ List.mem_map_of_mem key hb2) h.1
    · rcases List.mem_cons.mp hb with rfl | hb2
      · exact absurd (hk ▸ List.mem_map_of_mem key ha2) h.1
      · exact ih h.2 ha2 hb2 hk

/-- The replaced-row property tracked through the snapshot loop: the
fresh row is present, and it is the only row carrying its channel id. -/
def ReplacedBy (c : String) (fresh : HistRow) (hist : List HistRow) : Prop :=
  fresh ∈ hist ∧ ∀ r ∈ hist, r.channelId = c → r = fresh

/-- One step of the snapshot loop for a channel with a different id
preserves the replaced-row property. -/
theorem channelStep_preserves_replacedBy (now : ℚ) (knownOpen : List String)
    (c : String) (fresh : HistRow) (hfid : fresh.channelId = c)
    (hist : List HistRow) (ch : Channel) (hne : ch.channelId ≠ c)
    (hP : ReplacedBy c fresh hist) :
    ReplacedBy c fresh (channelStep now knownOpen hist ch) := by
  obtain ⟨hmem, huniq⟩ := hP
  unfold channelStep
  split_ifs with hknown
  · constructor
    · refine List.mem_map.mpr ⟨fresh, hmem, ?_⟩
      rw [if_neg (by rw [hfid]; exact fun h => hne h.symm)]
    · intro r hr hrc
      rcases List.mem_map.mp hr with ⟨a, ha, rfl⟩
      by_cases hac : a.channelId = ch.channelId
      · rw [if_pos hac] at hrc ⊢
        have : a.channelId = c := hrc
        have := huniq a ha this
        subst this
        exact absurd (hfid ▸ hac) hne.symm
      · rw [if_neg hac] at hrc ⊢
        exact huniq a ha hrc
  · constructor
    · refine List.mem_append.mpr (Or.inl ?_)
      refine List.mem_filter.mpr ⟨hmem, ?_⟩
      simp [hfid]
      exact fun h => hne h.symm
    · intro r hr hrc
      rcases List.mem_append.mp hr with hr1 | hr2
      · exact huniq r (List.mem_filter.mp hr1).1 hrc
      · rcases List.mem_singleton.mp hr2 with rfl
        exact absurd hrc hne

/-- The snapshot loop over channels whose ids all differ from `c`
preserves the replaced-row property. -/
theorem channelStep_foldl_preserves_replacedBy (now : ℚ)
    (knownOpen : List String) (c : String) (fresh : HistRow)
    (hfid : fresh.channelId = c) :
    ∀ (l : List Channel), (∀ x ∈ l, x.channelId ≠ c) →
      ∀ hist, ReplacedBy c fresh hist →
        ReplacedBy c fresh (l.foldl (channelStep now knownOpen) hist)
  | [], _, hist, hP => hP
  | ch :: t, hl, hist, hP => by
    rw [List.foldl_cons]
    exact channelStep_foldl_preserves_replacedBy now knownOpen c fresh hfid t
      (fun x hx => hl x (List.mem_cons_of_mem ch hx))
      (channelStep now knownOpen hist ch)
      (channelStep_preserves_replacedBy now knownOpen c fresh hfid hist ch
        (hl ch (List.mem_cons_self ch t)) hP)

/-- Claim C10: when a channel id recorded in `channel_history` with
`is_open = 0` appears again in the snapshot passed to the tracker, the
history row is replaced entirely: after `channels_update` the only row
carrying that id is a fresh row whose `first_seen_at` and `last_seen_at`
are the current cycle timestamp, whose capacity, user channel id and
counterparty come from the snapshot channel, and which is marked open. -/
theorem c10_closed_channel_row_replaced (now : ℚ) (hist : List HistRow)
    (channels : List Channel) (row : HistRow) (ch : Channel)
    (hHistKeys : (hist.map (fun r => r.channelId)).Nodup)
    (hChanKeys : (channels.map (fun x => x.channelId)).Nodup)
    (hrow : row ∈ hist) (hclosed : row.isOpen = false)
    (hch : ch ∈ channels) (hid : ch.channelId = row.channelId) :
    ReplacedBy row.channelId
      ⟨ch.channelId, ch.userChannelId, ch.counterpartyNodeId,
        ch.channelValueSats, now, now, true⟩
      (channels_update now hist channels) := by
  set c := row.channelId with hc
  set fresh : HistRow := ⟨ch.channelId, ch.userChannelId, ch.counterpartyNodeId,
    ch.channelValueSats, now, now, true⟩ with hfresh
  have hfid : fresh.channelId = c := hid
  -- the closed id is not in known_open
  have hnotKnown : ∀ r ∈ hist, r.isOpen = true → r.channelId ≠ c := by
    intro r hr hopen hrc
    have : r = row := map_nodup_key_inj hHistKeys hr hrow hrc
    rw [this] at hopen
    rw [hclosed] at hopen
    exact Bool.false_ne_true hopen
  have hcontains : ((hist.filter (fun r => r.isOpen)).map
      (fun r => r.channelId)).contains c = false := by
    rw [Bool.eq_false_iff]
    intro hmem
    rcases List.mem_map.mp (List.mem_of_elem_eq_true hmem) with ⟨r, hrf, hrc⟩
    rcases List.mem_filter.mp hrf with ⟨hr, hopen⟩
    exact hnotKnown r hr (by simpa using hopen) hrc
  -- split the snapshot at ch
  rcases List.append_of_mem hch with ⟨l1, l2, rfl⟩
  have hl2 : ∀ x ∈ l2, x.channelId ≠ c := by
    intro x hx hxc
    have hmapnd := hChanKeys
    rw [List.map_append, List.map_cons] at hmapnd
    rcases List.nodup_append.mp hmapnd with ⟨_, hnd2, _⟩
    rw [List.nodup_cons] at hnd2
    exact hnd2.1 (hid ▸ hxc ▸ List.mem_map_of_mem (fun x => x.channelId) hx)
  unfold channels_update
  dsimp only
  rw [List.foldl_append, List.foldl_cons]
  set knownOpen := (hist.filter (fun r => r.isOpen)).map (fun r => r.channelId)
    with hko
  set h0 := l1.foldl (channelStep now knownOpen) hist with hh0
  -- processing ch replaces the row
  have hstep : ReplacedBy c fresh (channelStep now knownOpen h0 ch) := by
    unfold channelStep
    rw [if_neg (by rw [hid]; simp [hko] at hcontains ⊢; exact hcontains)]
    constructor
    · exact List.mem_append.mpr (Or.inr (List.mem_singleton.mpr rfl))
    · intro r hr hrc
      rcases List.mem_append.mp hr with hr1 | hr2
      · rcases List.mem_filter.mp hr1 with ⟨_, hne⟩
        rw [hid] at hne
        simp at hne
        exact absurd hrc hne
      · exact List.mem_singleton.mp hr2
  have hfold := channelStep_foldl_preserves_replacedBy now knownOpen c fresh
    hfid l2 hl2 _ hstep
  -- the closure-marking pass leaves the fresh row alone
  obtain ⟨hmem, huniq⟩ := hfold
  have hcondF : (knownOpen.contains fresh.channelId
      && !(((l1 ++ ch :: l2).map (fun x => x.channelId)).contains
            fresh.channelId)) = false := by
    rw [hfid, hcontains]
    rfl
  constructor
  · refine List.mem_map.mpr ⟨fresh, hmem, ?_⟩
    rw [if_neg (by rw [hcondF]; exact Bool.false_ne_true)]
  · intro r hr hrc
    rcases List.mem_map.mp hr with ⟨a, ha, rfl⟩
    by_cases hcond : knownOpen.contains a.channelId
        && !(((l1 ++ ch :: l2).map (fun x => x.channelId)).contains a.channelId)
    · rw [if_pos hcond] at hrc ⊢
      have hac : a.channelId = c := hrc
      have : a = fresh := huniq a ha hac
      subst this
      rw [hcondF] at hcond
      exact absurd hcond Bool.false_ne_true
    · rw [if_neg hcond] at hrc ⊢
      exact huniq a ha hrc

/-- A concrete closed history row with id `ch1`. -/
def c10Row : HistRow :=
  ⟨"ch1", "uOld", "peerOld", 500000, 10, 20, false⟩

/-- A concrete snapshot channel re-using id `ch1` with different
metadata. -/
def c10Chan : Channel :=
  { channelId := "ch1"
    userChannelId := "uNew"
    counterpartyNodeId := "peerNew"
    channelValueSats := 900000
    outboundCapacityMsat := 0
    isUsable := true
    channelConfig := none }

/-- Witness for C10: the theorem applied at a one-row history holding a
closed `ch1` row and a one-channel snapshot re-using id `ch1` at cycle
timestamp `30`. -/
theorem c10_replaced_witness :
    ReplacedBy c10Row.channelId
      ⟨c10Chan.channelId, c10Chan.userChannelId, c10Chan.counterpartyNodeId,
        c10Chan.channelValueSats, 30, 30, true⟩
      (channels_update 30 [c10Row] [c10Chan]) :=
  c10_closed_channel_row_replaced 30 [c10Row] [c10Chan] c10Row c10Chan
    (by simp) (by simp) (List.mem_singleton.mpr rfl) rfl
    (List.mem_singleton.mpr rfl) rfl

/-- Witness for C7: the theorem applied at the ascending list
`[(1,10),(2,1),(3,1)]` with non-negative weights. -/
theorem c7_weighted_median_witness :
    (∃ k, firstHalfIdx [((1 : ℚ), (10 : ℚ)), (2, 1), (3, 1)] = some k
        ∧ weighted_median [((1 : ℚ), (10 : ℚ)), (2, 1), (3, 1)]
            = (([((1 : ℚ), (10 : ℚ)), (2, 1), (3, 1)]).getD k (0, 0)).1)
    ∧ weighted_median [((1 : ℚ), (10 : ℚ)), (2, 1), (3, 1)] = 1
    ∧ weighted_median [((1 : ℚ), (1 : ℚ)), (2, 1), (3, 1)] = 2 :=
  c7_weighted_median_spec [((1 : ℚ), (10 : ℚ)), (2, 1), (3, 1)]
    (by simp)
    (by constructor
        · norm_num
        · constructor
          · norm_num
          · exact List.chain'_singleton _)
    (by intro vw h
        fin_cases h <;> norm_num)

/-! ## Earnings rebalancer (`src/rebalancer/earnings.rs`) -/

/-- `ABS_MAX_REBALANCE_FEE_SATS` (`earnings.rs` line 26). -/
def ABS_MAX_REBALANCE_FEE_SATS : Nat := 50000

/-- `TOP_REBALANCING_PERCENTILE` (`earnings.rs` line 28). -/
def TOP_REBALANCING_PERCENTILE : ℚ := 20

/-- `struct ChannelBalance` (`earnings.rs` lines 30-36). -/
structure ChannelBalance where
  counterpartyNodeId : String
  channelId : String
  spendableMsat : Nat
  totalMsat : Nat
  spendablePercent : ℚ
deriving Repr

/-- The rebalancer configuration fields read by `run` (`config.rs`,
`RebalancerConfig`), together with `general.dry_run`. -/
structure RebalancerCfg where
  maxSpendablePercent : ℚ
  sourceGapPercent : ℚ
  targetSpendablePercent : ℚ
  maxFeePpm : Nat
  maxTotalFeeSats : Nat
  dryRun : Bool
deriving Repr

/-- A row written to `rebalance_costs` by the rebalancer (fee and amount
in msat); the fee recorded is the fee budget (`earnings.rs` line 237
returns `max_fee_msat`). -/
structure RebalRecord where
  channelId : String
  counterpartyNodeId : String
  feeSpentMsat : Nat
  amountRebalancedMsat : Nat
deriving Repr

/-- Balance computation (`earnings.rs` lines 50-67): drop zero-capacity
channels, keep outbound msat and the spendable percentage. -/
def channelBalances (channels : List Channel) : List ChannelBalance :=
  channels.filterMap fun ch =>
    let totalMsat := ch.channelValueSats * 1000
    if totalMsat = 0 then none
    else
      some ⟨ch.counterpartyNodeId, ch.channelId, ch.outboundCapacityMsat,
        totalMsat, (ch.outboundCapacityMsat : ℚ) / (totalMsat : ℚ) * 100⟩

/-- Classification loop (`earnings.rs` lines 70-87): destinations are
channels below `max_spendable_percent` (with their peer's 30-day out-net
earnings), sources are channels above `max_spendable_percent +
source_gap_percent` (with in-net earnings).  The earnings queries are the
oracles `outNet` and `inNet`. -/
def classifyChannels (cfg : RebalancerCfg) (balances : List ChannelBalance)
    (outNet inNet : String → Int) :
    List (Nat × Int) × List (Nat × Int) :=
  balances.enum.foldl
    (fun acc ib =>
      if ib.2.spendablePercent < cfg.maxSpendablePercent then
        (acc.1 ++ [(ib.1, outNet ib.2.counterpartyNodeId)], acc.2)
      else if cfg.maxSpendablePercent + cfg.sourceGapPercent
          < ib.2.spendablePercent then
        (acc.1, acc.2 ++ [(ib.1, inNet ib.2.counterpartyNodeId)])
      else acc)
    ([], [])

/-- Descending stable sort by the earnings component (`earnings.rs`
lines 95-97: `sort_by(|a, b| b.1.cmp(&a.1))`). -/
def sortPairsDesc (l : List (Nat × Int)) : List (Nat × Int) :=
  l.mergeSort fun a b => decide (b.2 ≤ a.2)

/-- The balance record selected by the i-th entry of a sorted pair list
(`earnings.rs` lines 110-114; Rust indexing cannot fail there, `getD`
supplies an irrelevant default). -/
def pairBal (balances : List ChannelBalance) (pairs : List (Nat × Int))
    (i : Nat) : ChannelBalance :=
  balances.getD (pairs.getD i (0, 0)).1 ⟨"", "", 0, 0, 0⟩

/-- The rebalance amount for the i-th pair (`earnings.rs` lines
125-133): `min(dest_target - dest_spendable, src_spendable -
src_min_allowed)` with saturating subtraction. -/
def pairAmountMsat (cfg : RebalancerCfg) (balances : List ChannelBalance)
    (dsts srcs : List (Nat × Int)) (i : Nat) : Nat :=
  let dst := pairBal balances dsts i
  let src := pairBal balances srcs i
  min
    (rustCastNat ((dst.totalMsat : ℚ) * cfg.targetSpendablePercent / 100)
      - dst.spendableMsat)
    (src.spendableMsat
      - rustCastNat ((src.totalMsat : ℚ)
          * (cfg.maxSpendablePercent + cfg.sourceGapPercent) / 100))

/-- The fee budget for the i-th pair (`earnings.rs` lines 138-144):
`amount * max_fee_ppm / 1e6`, capped at the destination's net earnings
and at the remaining total budget. -/
def pairFeeBudget (cfg : RebalancerCfg) (balances : List ChannelBalance)
    (dsts srcs : List (Nat × Int)) (i : Nat)
    (maxTotalFee totalFeeSpent : Nat) : Nat :=
  min
    (min
      (rustCastNat ((pairAmountMsat cfg balances dsts srcs i : ℚ)
        * (cfg.maxFeePpm : ℚ) / 1000000))
      (dsts.getD i (0, 0)).2.toNat)
    (maxTotalFee * 1000 - totalFeeSpent)

/-- The pair loop of `run` (`earnings.rs` lines 109-193).  `execOk i`
tells whether the i-th `execute_rebalance` RPC pair succeeds; the records
accumulate the `rebalance_costs` inserts. -/
def rebalLoop (cfg : RebalancerCfg) (balances : List ChannelBalance)
    (dsts srcs : List (Nat × Int)) (maxTotalFee : Nat) (execOk : Nat → Bool) :
    List Nat → Nat → List RebalRecord → List RebalRecord
  | [], _, recs => recs
  | i :: rest, totalFeeSpent, recs =>
    if (dsts.getD i (0, 0)).2 ≤ 0 then recs
    else if pairAmountMsat cfg balances dsts srcs i = 0 then
      rebalLoop cfg balances dsts srcs maxTotalFee execOk rest totalFeeSpent recs
    else if pairFeeBudget cfg balances dsts srcs i maxTotalFee totalFeeSpent = 0 then
      rebalLoop cfg balances dsts srcs maxTotalFee execOk rest totalFeeSpent recs
    else if cfg.dryRun then
      rebalLoop cfg balances dsts srcs maxTotalFee execOk rest totalFeeSpent recs
    else if execOk i then
      rebalLoop cfg balances dsts srcs maxTotalFee execOk rest
        (totalFeeSpent + pairFeeBudget cfg balances dsts srcs i maxTotalFee totalFeeSpent)
        (recs ++ [⟨(pairBal balances srcs i).channelId,
          (pairBal balances srcs i).counterpartyNodeId,
          pairFeeBudget cfg balances dsts srcs i maxTotalFee totalFeeSpent,
          pairAmountMsat cfg balances dsts srcs i⟩])
    else
      rebalLoop cfg balances dsts srcs maxTotalFee execOk rest totalFeeSpent recs

/-- `rebalancer::earnings::run` (`earnings.rs` lines 38-196), with the
`rebalance_costs` inserts as the observable effect. -/
def rebalancer_run (cfg : RebalancerCfg) (channels : List Channel)
    (outNet inNet : String → Int) (execOk : Nat → Bool) : List RebalRecord :=
  let balances := channelBalances channels
  let cls := classifyChannels cfg balances outNet inNet
  if cls.1.isEmpty || cls.2.isEmpty then []
  else
    let dsts := sortPairsDesc cls.1
    let srcs := sortPairsDesc cls.2
    let num := min dsts.length srcs.length
    let numRebalance :=
      max (rustCastNat ((num : ℚ) * TOP_REBALANCING_PERCENTILE / 100)) 1
    let maxTotalFee := min cfg.maxTotalFeeSats ABS_MAX_REBALANCE_FEE_SATS
    rebalLoop cfg balances dsts srcs maxTotalFee execOk
      (List.range numRebalance) 0 []

/-- The pair loop never lets the recorded fees grow past the remaining
budget: each executed pair's budget is capped at
`max_total_fee * 1000 - total_fee_spent`. -/
theorem rebalLoop_sum_le (cfg : RebalancerCfg) (balances : List ChannelBalance)
    (dsts srcs : List (Nat × Int)) (maxTotalFee : Nat) (execOk : Nat → Bool) :
    ∀ (idxs : List Nat) (total : Nat) (recs : List RebalRecord),
      ((rebalLoop cfg balances dsts srcs maxTotalFee execOk idxs total recs).map
          (fun r => r.feeSpentMsat)).sum
        ≤ (recs.map (fun r => r.feeSpentMsat)).sum + (maxTotalFee * 1000 - total)
  | [], total, recs => by
    simp [rebalLoop]
  | i :: rest, total, recs => by
    simp only [rebalLoop]
    split_ifs with h1 h2 h3 h4 h5
    · exact Nat.le_add_right _ _
    · exact rebalLoop_sum_le cfg balances dsts srcs maxTotalFee execOk rest total recs
    · exact rebalLoop_sum_le cfg balances dsts srcs maxTotalFee execOk rest total recs
    · exact rebalLoop_sum_le cfg balances dsts srcs maxTotalFee execOk rest total recs
    · refine le_trans
        (rebalLoop_sum_le cfg balances dsts srcs maxTotalFee execOk rest _ _) ?_
      rw [List.map_append, List.sum_append]
      simp only [List.map_cons, List.map_nil, List.sum_cons, List.sum_nil]
      have hle : pairFeeBudget cfg balances dsts srcs i maxTotalFee total
          ≤ maxTotalFee * 1000 - total := min_le_right _ _
      omega
    · exact rebalLoop_sum_le cfg balances dsts srcs maxTotalFee execOk rest total recs

/-- Claim C8: across one run of the rebalancer, the sum of the per-pair
fee budgets it spends and records into `rebalance_costs` never exceeds
`min(config.max_total_fee_sats, 50000)` satoshis (stated here in msat,
the unit of the recorded column), for every set of channels, earnings
history and configuration, and every pattern of RPC successes. -/
theorem c8_rebalancer_total_fee_cap (cfg : RebalancerCfg)
    (channels : List Channel) (outNet inNet : String → Int)
    (execOk : Nat → Bool) :
    ((rebalancer_run cfg channels outNet inNet execOk).map
        (fun r => r.feeSpentMsat)).sum
      ≤ min cfg.maxTotalFeeSats ABS_MAX_REBALANCE_FEE_SATS * 1000 := by
  unfold rebalancer_run
  dsimp only
  split_ifs with h
  · simp
  · exact le_trans
      (rebalLoop_sum_le cfg (channelBalances channels) _ _
        (min cfg.maxTotalFeeSats ABS_MAX_REBALANCE_FEE_SATS) execOk _ 0 [])
      (by simp)

/-! ## Price-theory game (`src/fees/price_theory.rs`) -/

/-- `MAX_PRICE` (`price_theory.rs` line 21). -/
def MAX_PRICE : Int := 10

/-- Card position `deck` (`price_theory.rs` line 24). -/
def POS_DECK : Int := 0

/-- Card position `in-play` (`price_theory.rs` line 25). -/
def POS_IN_PLAY : Int := 1

/-- Card position `discarded` (`price_theory.rs` line 26). -/
def POS_DISCARDED : Int := 2

/-- A `price_theory_cards` row (schema in `db.rs`); `id` is the INTEGER
PRIMARY KEY. -/
structure Card where
  id : Nat
  counterpartyNodeId : String
  position : Int
  deckOrder : Int
  price : Int
  lifetime : Int
  earningsMsat : Int
deriving DecidableEq, Repr

/-- The fee-module configuration fields the game reads (`config.rs`,
`FeesConfig`). -/
structure FeesCfg where
  priceTheoryCardLifetimeTicks : Int
  priceTheoryMaxStep : Int
deriving Repr

/-- The price-theory tables: the `price_theory_cards` rows (list order
standing for rowid scan order), the `price_theory_center` rows, and the
next fresh primary-key id. -/
structure PTState where
  cards : List Card
  centers : List (String × Int)
  nextId : Nat
deriving Repr

/-- The empty database the daemon starts from. -/
def ptInit : PTState := ⟨[], [], 0⟩

/-- `UPDATE price_theory_cards SET ... WHERE id = i`. -/
def updateById (cards : List Card) (i : Nat) (f : Card → Card) : List Card :=
  cards.map fun c => if c.id = i then f c else c

/-- Predicate for an in-play card of peer `p`. -/
def isInPlayFor (p : String) (c : Card) : Bool :=
  c.counterpartyNodeId == p && c.position == POS_IN_PLAY

/-- The number of rows with `(counterparty = p, position = in-play)`. -/
def inPlayCount (cards : List Card) (p : String) : Nat :=
  cards.countP (isInPlayFor p)

/-- `SELECT ... WHERE counterparty_node_id = p AND position = 1 LIMIT 1`
(`price_theory.rs` lines 83-89). -/
def findInPlay (cards : List Card) (p : String) : Option Card :=
  cards.find? (isInPlayFor p)

/-- Selection of an extremal row among a filtered set (the
`ORDER BY ... LIMIT 1` queries); `better c b = true` means `c` strictly
precedes `b`, so earlier rows win ties. -/
def pickBest (better : Card → Card → Bool) (cards : List Card) : Option Card :=
  cards.foldl
    (fun acc c =>
      match acc with
      | none => some c
      | some b => if better c b then some c else some b)
    none

/-- `SELECT ... WHERE counterparty = p AND position = 0 ORDER BY
deck_order ASC LIMIT 1` (`price_theory.rs` lines 144-151). -/
def nextDeckCard (cards : List Card) (p : String) : Option Card :=
  pickBest (fun c b => decide (c.deckOrder < b.deckOrder))
    (cards.filter fun c => c.counterpartyNodeId == p && c.position == POS_DECK)

/-- `SELECT ... WHERE counterparty = p AND position = 2 ORDER BY
earnings_msat DESC LIMIT 1` (`price_theory.rs` lines 204-211). -/
def bestDiscarded (cards : List Card) (p : String) : Option Card :=
  pickBest (fun c b => decide (b.earningsMsat < c.earningsMsat))
    (cards.filter fun c => c.counterpartyNodeId == p && c.position == POS_DISCARDED)

/-- The rows inserted by `create_deck` (`price_theory.rs` lines
291-304): one row per shuffled price, `deck_order` the enumeration index,
ids the consecutive fresh primary keys. -/
def deckCards (p : String) (lifetime : Int) : Nat → Int → List Int → List Card
  | _, _, [] => []
  | startId, ord, price :: rest =>
    ⟨startId, p, POS_DECK, ord, price, lifetime, 0⟩
      :: deckCards p lifetime (startId + 1) (ord + 1) rest

/-- `create_deck` (`price_theory.rs` lines 277-307): shuffle the prices
`{center - step, ..., center + step}` clamped to `[-10, 10]` and insert
one deck row per price.  The Fisher-Yates shuffle is an oracle, indexed
by the state's next fresh id so that distinct calls may shuffle
differently; the theorems below hold for every oracle, hence for every
shuffle outcome. -/
def create_deck (shuffle : Nat → List Int → List Int) (s : PTState)
    (p : String) (center : Int) (cfg : FeesCfg) : PTState :=
  let step := cfg.priceTheoryMaxStep
  let prices0 := (List.range (2 * step + 1).toNat).map
    (fun k => rustClampInt (center + (k : Int) - step) (-MAX_PRICE) MAX_PRICE)
  let prices := shuffle s.nextId prices0
  { cards := s.cards ++ deckCards p cfg.priceTheoryCardLifetimeTicks s.nextId 0 prices
    centers := s.centers
    nextId := s.nextId + prices.length }

/-- `INSERT OR REPLACE INTO price_theory_center` (`price_theory.rs`
lines 233-236). -/
def setCenter (s : PTState) (p : String) (v : Int) : PTState :=
  { s with centers := (p, v) :: s.centers.filter fun e => e.1 ≠ p }

/-- `SELECT price FROM price_theory_center WHERE counterparty = p` with
`unwrap_or(0)` (`price_theory.rs` lines 222-229). -/
def centerOf (s : PTState) (p : String) : Int :=
  ((s.centers.find? fun e => e.1 == p).map Prod.snd).getD 0

/-- `end_round` (`price_theory.rs` lines 199-248): promote the
best-earning discarded card's price (clamped) to the new center, delete
the peer's cards, create a fresh deck. -/
def end_round (shuffle : Nat → List Int → List Int) (s : PTState)
    (p : String) (cfg : FeesCfg) : PTState :=
  let newCenter :=
    match bestDiscarded s.cards p with
    | some c => rustClampInt c.price (-MAX_PRICE) MAX_PRICE
    | none => centerOf s p
  let s1 := setCenter s p newCenter
  let s2 := { s1 with cards := s1.cards.filter fun c => c.counterpartyNodeId ≠ p }
  create_deck shuffle s2 p newCenter cfg

/-- `UPDATE ... SET position = 1, lifetime = ? WHERE id = ?`
(`price_theory.rs` lines 155-158 and 179-185). -/
def playCard (lifetime : Int) (c : Card) : Card :=
  { c with position := POS_IN_PLAY, lifetime := lifetime }

/-- `draw_card` (`price_theory.rs` lines 139-196): flip the lowest
deck-order deck card to in-play; if the deck is empty, end the round
first and then draw from the new deck (which may itself be empty). -/
def draw_card (shuffle : Nat → List Int → List Int) (s : PTState)
    (p : String) (cfg : FeesCfg) : PTState :=
  match nextDeckCard s.cards p with
  | some c =>
    { s with cards :=
        updateById s.cards c.id (playCard cfg.priceTheoryCardLifetimeTicks) }
  | none =>
    let s1 := end_round shuffle s p cfg
    match nextDeckCard s1.cards p with
    | some c =>
      { s1 with cards :=
          updateById s1.cards c.id (playCard cfg.priceTheoryCardLifetimeTicks) }
    | none => s1

/-- `ensure_initialized` (`price_theory.rs` lines 251-274): on first
sight of a peer (no cards at all), insert center 0 (INSERT OR IGNORE)
and create a deck around 0. -/
def init_peer (shuffle : Nat → List Int → List Int) (s : PTState)
    (p : String) (cfg : FeesCfg) : PTState :=
  if s.cards.any (fun c => c.counterpartyNodeId == p) then s
  else
    let s1 := { s with centers :=
      if (s.centers.find? fun e => e.1 == p).isSome then s.centers
      else (p, 0) :: s.centers }
    create_deck shuffle s1 p 0 cfg

/-- `UPDATE ... SET position = 2, lifetime = 0 WHERE id = ?`
(`price_theory.rs` lines 95-98). -/
def discardCard (c : Card) : Card :=
  { c with position := POS_DISCARDED, lifetime := 0 }

/-- `UPDATE ... SET lifetime = lifetime - 1 WHERE id = ?`
(`price_theory.rs` lines 107-110). -/
def decCard (c : Card) : Card :=
  { c with lifetime := c.lifetime - 1 }

/-- The per-peer body of `update_tick` (`price_theory.rs` lines 78-119):
ensure the peer is initialized, then decrement / discard-and-redraw /
draw depending on the in-play card and its lifetime. -/
def tickPeer (shuffle : Nat → List Int → List Int) (cfg : FeesCfg)
    (s : PTState) (p : String) : PTState :=
  let s1 := init_peer shuffle s p cfg
  match findInPlay s1.cards p with
  | some c =>
    if c.lifetime ≤ 1 then
      let s2 := { s1 with cards := updateById s1.cards c.id discardCard }
      draw_card shuffle s2 p cfg
    else
      { s1 with cards := updateById s1.cards c.id decCard }
  | none => draw_card shuffle s1 p cfg

/-- `update_tick` (`price_theory.rs` lines 71-122): process every
connected peer in order. -/
def update_tick (shuffle : Nat → List Int → List Int) (s : PTState)
    (connectedPeers : List String) (cfg : FeesCfg) : PTState :=
  connectedPeers.foldl (tickPeer shuffle cfg) s

/-- A sequence of `update_tick` calls (each with its own peer set,
configuration and shuffle randomness) run against the initially empty
database. -/
def runTicks
    (calls : List (List String × FeesCfg × (Nat → List Int → List Int))) :
    PTState :=
  calls.foldl (fun s args => update_tick args.2.2 s args.1 args.2.1) ptInit

/-! ### Counting and well-formedness lemmas for the card game -/

/-- Primary keys are well formed: every card id is below the next fresh
id, and no two rows share an id. -/
def CardIdsOk (s : PTState) : Prop :=
  (∀ c ∈ s.cards, c.id < s.nextId) ∧ (s.cards.map (fun c => c.id)).Nodup

/-- The card-game invariant: well-formed primary keys and at most one
in-play card per peer. -/
def PTInv (s : PTState) : Prop :=
  CardIdsOk s ∧ ∀ p, inPlayCount s.cards p ≤ 1

theorem countP_or_le {α : Type} (p q : α → Bool) :
    ∀ l : List α, l.countP (fun a => p a || q a) ≤ l.countP p + l.countP q
  | [] => by simp
  | a :: t => by
    simp only [List.countP_cons]
    have := countP_or_le p q t
    by_cases hp : p a <;> by_cases hq : q a <;> simp [hp, hq] <;> omega

theorem countP_and_split {α : Type} (q r : α → Bool) :
    ∀ l : List α,
      l.countP q
        = l.countP (fun a => q a && r a) + l.countP (fun a => q a && !r a)
  | [] => by simp
  | a :: t => by
    simp only [List.countP_cons]
    have := countP_and_split q r t
    by_cases hq : q a <;> by_cases hr : r a <;> simp [hq, hr] <;> omega

/-- With a duplicate-free key projection, at most one element carries any
given key. -/
theorem countP_key_le_one {α β : Type} [DecidableEq β] (key : α → β) :
    ∀ l : List α, (l.map key).Nodup → ∀ b : β,
      l.countP (fun a => decide (key a = b)) ≤ 1
  | [], _, b => by simp
  | a :: t, h, b => by
    rw [List.map_cons, List.nodup_cons] at h
    rw [List.countP_cons]
    by_cases hab : key a = b
    · have ht : t.countP (fun x => decide (key x = b)) = 0 := by
        rw [List.countP_eq_zero]
        intro x hx hxb
        rw [decide_eq_true_eq] at hxb
        have hxa : key x = key a := by rw [hxb, hab]
        exact h.1 (hxa ▸ List.mem_map_of_mem key hx)
      rw [ht]
      simp [hab]
    · rw [if_neg (by simp [hab])]
      have := countP_key_le_one key t h.2 b
      omega

theorem countP_updateById_le (cards : List Card) (i : Nat) (f : Card → Card)
    (q : Card → Bool)
    (h : ∀ c ∈ cards, c.id = i → q (f c) = true → q c = true) :
    (updateById cards i f).countP q ≤ cards.countP q := by
  unfold updateById
  rw [List.countP_map]
  apply List.countP_mono_left
  intro c hc hq
  simp only [Function.comp_apply] at hq
  by_cases hci : c.id = i
  · rw [if_pos hci] at hq
    exact h c hc hci hq
  · rwa [if_neg hci] at hq

theorem countP_updateById_congr (cards : List Card) (i : Nat) (f : Card → Card)
    (q : Card → Bool) (h : ∀ c ∈ cards, c.id = i → q (f c) = q c) :
    (updateById cards i f).countP q = cards.countP q := by
  unfold updateById
  rw [List.countP_map]
  apply List.countP_congr
  intro c hc
  simp only [Function.comp_apply]
  by_cases hci : c.id = i
  · rw [if_pos hci, h c hc hci]
  · rw [if_neg hci]

theorem updateById_map_id (cards : List Card) (i : Nat) (f : Card → Card)
    (hf : ∀ c, (f c).id = c.id) :
    (updateById cards i f).map (fun c => c.id) = cards.map (fun c => c.id) := by
  unfold updateById
  rw [List.map_map]
  apply List.map_congr_left
  intro c _
  simp only [Function.comp_apply]
  by_cases hci : c.id = i
  · rw [if_pos hci, hf]
  · rw [if_neg hci]

theorem cardIdsOk_updateById (s : PTState) (i : Nat) (f : Card → Card)
    (hf : ∀ c, (f c).id = c.id) (h : CardIdsOk s) :
    CardIdsOk { s with cards := updateById s.cards i f } := by
  obtain ⟨hbound, hnd⟩ := h
  constructor
  · intro c hc
    rcases List.mem_map.mp hc with ⟨a, ha, rfl⟩
    by_cases hai : a.id = i
    · simpa [hai, hf] using hbound a ha
    · simpa [hai] using hbound a ha
  · show ((updateById s.cards i f).map (fun c => c.id)).Nodup
    rw [updateById_map_id s.cards i f hf]
    exact hnd

/-- The fold underlying `pickBest` only ever returns the accumulator or
a list member. -/
theorem pickBest_go_mem (better : Card → Card → Bool) :
    ∀ (l : List Card) (acc : Option Card) (c : Card),
      l.foldl
        (fun acc c =>
          match acc with
          | none => some c
          | some b => if better c b then some c else some b)
        acc = some c →
      acc = some c ∨ c ∈ l
  | [], acc, c, h => Or.inl h
  | x :: t, acc, c, h => by
    rw [List.foldl_cons] at h
    rcases pickBest_go_mem better t _ c h with h2 | h2
    · cases acc with
      | none =>
        simp only at h2
        injection h2 with hxc
        refine Or.inr ?_
        rw [← hxc]
        exact List.mem_cons_self x t
      | some b =>
        simp only at h2
        by_cases hbb : better x b
        · rw [if_pos hbb] at h2
          injection h2 with hxc
          refine Or.inr ?_
          rw [← hxc]
          exact List.mem_cons_self x t
        · rw [if_neg hbb] at h2
          exact Or.inl h2
    · exact Or.inr (List.mem_cons_of_mem x h2)

theorem pickBest_mem (better : Card → Card → Bool) (l : List Card) (c : Card)
    (h : pickBest better l = some c) : c ∈ l := by
  rcases pickBest_go_mem better l none c h with h2 | h2
  · exact absurd h2 (by simp)
  · exact h2

/-- A successful deck draw returns a member deck card of the peer. -/
theorem nextDeckCard_spec (cards : List Card) (p : String) (c : Card)
    (h : nextDeckCard cards p = some c) :
    c ∈ cards ∧ c.counterpartyNodeId = p ∧ c.position = POS_DECK := by
  have hmem := pickBest_mem _ _ _ h
  rcases List.mem_filter.mp hmem with ⟨hc, hpred⟩
  simp only [Bool.and_eq_true, beq_iff_eq] at hpred
  exact ⟨hc, hpred.1, hpred.2⟩

theorem findInPlay_some_spec (cards : List Card) (p : String) (c : Card)
    (h : findInPlay cards p = some c) :
    c ∈ cards ∧ c.counterpartyNodeId = p ∧ c.position = POS_IN_PLAY := by
  have h1 := List.find?_some h
  simp only [isInPlayFor, Bool.and_eq_true, beq_iff_eq] at h1
  exact ⟨List.mem_of_find?_eq_some h, h1.1, h1.2⟩

theorem findInPlay_none_count (cards : List Card) (p : String)
    (h : findInPlay cards p = none) : inPlayCount cards p = 0 :=
  List.countP_eq_zero.mpr (List.find?_eq_none.mp h)

/-- Every row created by `deckCards` belongs to the peer, sits in the
deck position, and has a fresh id in the allotted range. -/
theorem deckCards_mem (p : String) (lt : Int) :
    ∀ (prices : List Int) (startId : Nat) (ord : Int) (c : Card),
      c ∈ deckCards p lt startId ord prices →
      c.counterpartyNodeId = p ∧ c.position = POS_DECK
        ∧ startId ≤ c.id ∧ c.id < startId + prices.length
  | [], _, _, c, h => absurd h (List.not_mem_nil c)
  | pr :: rest, startId, ord, c, h => by
    rw [deckCards] at h
    rcases List.mem_cons.mp h with rfl | h2
    · refine ⟨rfl, rfl, le_refl _, ?_⟩
      simp only [List.length_cons]
      omega
    · obtain ⟨ha, hb, hc, hd⟩ := deckCards_mem p lt rest (startId + 1) (ord + 1) c h2
      refine ⟨ha, hb, by omega, ?_⟩
      simp only [List.length_cons]
      omega

/-- The fresh ids of a new deck are distinct. -/
theorem deckCards_ids_nodup (p : String) (lt : Int) :
    ∀ (prices : List Int) (startId : Nat) (ord : Int),
      ((deckCards p lt startId ord prices).map (fun c => c.id)).Nodup
  | [], _, _ => List.nodup_nil
  | pr :: rest, startId, ord => by
    rw [deckCards, List.map_cons, List.nodup_cons]
    constructor
    · intro hmem
      rcases List.mem_map.mp hmem with ⟨c, hc, hcid⟩
      have := (deckCards_mem p lt rest (startId + 1) (ord + 1) c hc).2.2.1
      simp only at hcid
      omega
    · exact deckCards_ids_nodup p lt rest (startId + 1) (ord + 1)

/-- `create_deck` preserves the invariant and changes no in-play count
(every inserted row is a deck row). -/
theorem create_deck_inv (shuffle : Nat → List Int → List Int) (s : PTState)
    (p : String) (center : Int) (cfg : FeesCfg) (h : PTInv s) :
    PTInv (create_deck shuffle s p center cfg)
      ∧ ∀ p2, inPlayCount (create_deck shuffle s p center cfg).cards p2
          = inPlayCount s.cards p2 := by
  obtain ⟨⟨hbound, hnd⟩, hcount⟩ := h
  unfold create_deck
  dsimp only
  set prices := shuffle s.nextId
    ((List.range (2 * cfg.priceTheoryMaxStep + 1).toNat).map
      (fun k => rustClampInt (center + (k : Int) - cfg.priceTheoryMaxStep)
        (-MAX_PRICE) MAX_PRICE)) with hprices
  have hdeckZero : ∀ p2,
      (deckCards p cfg.priceTheoryCardLifetimeTicks s.nextId 0 prices).countP
        (isInPlayFor p2) = 0 := by
    intro p2
    rw [List.countP_eq_zero]
    intro c hc hq
    have hpos := (deckCards_mem p _ prices s.nextId 0 c hc).2.1
    simp only [isInPlayFor, Bool.and_eq_true, beq_iff_eq] at hq
    rw [hpos] at hq
    exact absurd hq.2 (by norm_num [POS_DECK, POS_IN_PLAY])
  have hcounts : ∀ p2,
      ((s.cards ++ deckCards p cfg.priceTheoryCardLifetimeTicks s.nextId 0
          prices).countP (isInPlayFor p2)) = inPlayCount s.cards p2 := by
    intro p2
    rw [List.countP_append, hdeckZero p2]
    simp [inPlayCount]
  refine ⟨⟨⟨?_, ?_⟩, ?_⟩, hcounts⟩
  · intro c hc
    show c.id < s.nextId + prices.length
    rcases List.mem_append.mp hc with hc1 | hc2
    · have := hbound c hc1
      omega
    · have := (deckCards_mem p _ prices s.nextId 0 c hc2).2.2.2
      omega
  · rw [List.map_append]
    rw [List.nodup_append]
    refine ⟨hnd, deckCards_ids_nodup p _ prices s.nextId 0, ?_⟩
    intro a ha hb
    rcases List.mem_map.mp ha with ⟨c1, hc1, rfl⟩
    rcases List.mem_map.mp hb with ⟨c2, hc2, hcid⟩
    have h1 := hbound c1 hc1
    have h2 := (deckCards_mem p _ prices s.nextId 0 c2 hc2).2.2.1
    omega
  · intro p2
    rw [show inPlayCount (s.cards ++ deckCards p
        cfg.priceTheoryCardLifetimeTicks s.nextId 0 prices) p2
      = (s.cards ++ deckCards p cfg.priceTheoryCardLifetimeTicks s.nextId 0
        prices).countP (isInPlayFor p2) from rfl, hcounts p2]
    exact hcount p2

/-- Deleting a peer's rows preserves the invariant and zeroes that
peer's in-play count. -/
theorem delete_peer_inv (s : PTState) (p : String) (h : PTInv s) :
    PTInv { s with cards := s.cards.filter fun c => c.counterpartyNodeId ≠ p }
      ∧ inPlayCount (s.cards.filter fun c => c.counterpartyNodeId ≠ p) p = 0 := by
  obtain ⟨⟨hbound, hnd⟩, hcount⟩ := h
  have hsub := @List.filter_sublist Card
    (fun c : Card => decide (c.counterpartyNodeId ≠ p)) s.cards
  refine ⟨⟨⟨?_, ?_⟩, ?_⟩, ?_⟩
  · intro c hc
    exact hbound c (List.mem_filter.mp hc).1
  · exact (hsub.map (fun c => c.id)).nodup hnd
  · intro p2
    exact le_trans (hsub.countP_le (isInPlayFor p2)) (hcount p2)
  · rw [inPlayCount, List.countP_filter, List.countP_eq_zero]
    intro c _ hq
    simp only [isInPlayFor, Bool.and_eq_true, beq_iff_eq, decide_eq_true_eq] at hq
    exact hq.2 hq.1.1

/-- `end_round` preserves the invariant and leaves the peer with no
in-play card (the old rows are deleted, the new deck is all deck rows). -/
theorem end_round_inv (shuffle : Nat → List Int → List Int) (s : PTState)
    (p : String) (cfg : FeesCfg) (h : PTInv s) :
    PTInv (end_round shuffle s p cfg)
      ∧ inPlayCount (end_round shuffle s p cfg).cards p = 0 := by
  have key : ∀ v : Int,
      PTInv (create_deck shuffle
        { setCenter s p v with
          cards := (setCenter s p v).cards.filter (fun c => c.counterpartyNodeId ≠ p) }
        p v cfg)
      ∧ inPlayCount (create_deck shuffle
        { setCenter s p v with
          cards := (setCenter s p v).cards.filter (fun c => c.counterpartyNodeId ≠ p) }
        p v cfg).cards p = 0 := by
    intro v
    have hsetInv : PTInv (setCenter s p v) := ⟨h.1, h.2⟩
    have hdel := delete_peer_inv (setCenter s p v) p hsetInv
    have hcd := create_deck_inv shuffle _ p v cfg hdel.1
    exact ⟨hcd.1, by rw [hcd.2 p]; exact hdel.2⟩
  unfold end_round
  dsimp only
  exact key _

/-- Flipping one deck card of peer `p` to in-play preserves the
invariant when `p` currently has no in-play card. -/
theorem flip_inv (s : PTState) (p : String) (c : Card) (lt : Int)
    (h : PTInv s) (h0 : inPlayCount s.cards p = 0)
    (hcmem : c ∈ s.cards) (hcpeer : c.counterpartyNodeId = p) :
    PTInv { s with cards := updateById s.cards c.id (playCard lt) } := by
  obtain ⟨⟨hbound, hnd⟩, hcount⟩ := h
  refine ⟨cardIdsOk_updateById s c.id (playCard lt) (fun d => rfl)
    ⟨hbound, hnd⟩, ?_⟩
  intro p2
  by_cases hp2 : p2 = p
  · subst hp2
    show (updateById s.cards c.id (playCard lt)).countP (isInPlayFor p2) ≤ 1
    unfold updateById
    rw [List.countP_map]
    have hmono : ∀ a ∈ s.cards,
        (isInPlayFor p2 ∘ fun d => if d.id = c.id then playCard lt d else d) a
            = true →
        (fun a => isInPlayFor p2 a || decide (a.id = c.id)) a = true := by
      intro a _ hq
      simp only [Function.comp_apply] at hq
      by_cases hai : a.id = c.id
      · simp [hai]
      · rw [if_neg hai] at hq
        simp [hq]
    refine le_trans (List.countP_mono_left hmono) ?_
    refine le_trans (countP_or_le _ _ s.cards) ?_
    have h1 : s.cards.countP (isInPlayFor p2) = 0 := h0
    have h2 : s.cards.countP (fun a => decide (a.id = c.id)) ≤ 1 :=
      countP_key_le_one (fun d : Card => d.id) s.cards hnd c.id
    omega
  · show (updateById s.cards c.id (playCard lt)).countP (isInPlayFor p2) ≤ 1
    refine le_trans (countP_updateById_le s.cards c.id (playCard lt)
      (isInPlayFor p2) ?_) (hcount p2)
    intro a ha hai hq
    have hac : a = c := map_nodup_key_inj hnd ha hcmem hai
    subst hac
    simp only [isInPlayFor, playCard, Bool.and_eq_true, beq_iff_eq] at hq
    exact absurd (hcpeer ▸ hq.1) (fun hh => hp2 hh.symm)

/-- Discarding the in-play card of peer `p` preserves the invariant and
zeroes its in-play count. -/
theorem discard_inv (s : PTState) (p : String) (c : Card)
    (h : PTInv s) (hc : findInPlay s.cards p = some c) :
    PTInv { s with cards := updateById s.cards c.id discardCard }
      ∧ inPlayCount (updateById s.cards c.id discardCard) p = 0 := by
  obtain ⟨⟨hbound, hnd⟩, hcount⟩ := h
  obtain ⟨hcmem, hcpeer, hcpos⟩ := findInPlay_some_spec s.cards p c hc
  have hdisKills : ∀ p2 (a : Card), isInPlayFor p2 (discardCard a) = false := by
    intro p2 a
    simp [isInPlayFor, discardCard, POS_DISCARDED, POS_IN_PLAY]
  constructor
  · refine ⟨cardIdsOk_updateById s c.id discardCard (fun d => rfl)
      ⟨hbound, hnd⟩, ?_⟩
    intro p2
    refine le_trans (countP_updateById_le s.cards c.id discardCard
      (isInPlayFor p2) ?_) (hcount p2)
    intro a _ _ hq
    rw [hdisKills p2 a] at hq
    exact absurd hq (by simp)
  · have hcongr : (updateById s.cards c.id discardCard).countP (isInPlayFor p)
        = s.cards.countP
            (fun a => isInPlayFor p a && !(decide (a.id = c.id))) := by
      unfold updateById
      rw [List.countP_map]
      apply List.countP_congr
      intro a _
      simp only [Function.comp_apply]
      by_cases hai : a.id = c.id
      · rw [if_pos hai, hdisKills p a]
        simp [hai]
      · rw [if_neg hai]
        simp [hai]
    rw [inPlayCount] at *
    rw [hcongr]
    have hsplit := countP_and_split (isInPlayFor p)
      (fun a => decide (a.id = c.id)) s.cards
    have hpos : 0 < s.cards.countP
        (fun a => isInPlayFor p a && decide (a.id = c.id)) := by
      rw [List.countP_pos_iff]
      refine ⟨c, hcmem, ?_⟩
      simp [isInPlayFor, hcpeer, hcpos]
    have hle := hcount p
    rw [inPlayCount] at hle
    omega

/-- `draw_card` preserves the invariant when the peer has no in-play
card. -/
theorem draw_card_inv (shuffle : Nat → List Int → List Int) (s : PTState)
    (p : String) (cfg : FeesCfg) (h : PTInv s)
    (h0 : inPlayCount s.cards p = 0) :
    PTInv (draw_card shuffle s p cfg) := by
  unfold draw_card
  cases hnd : nextDeckCard s.cards p with
  | some c =>
    obtain ⟨hcmem, hcpeer, _⟩ := nextDeckCard_spec s.cards p c hnd
    exact flip_inv s p c cfg.priceTheoryCardLifetimeTicks h h0 hcmem hcpeer
  | none =>
    dsimp only
    have her := end_round_inv shuffle s p cfg h
    cases hnd2 : nextDeckCard (end_round shuffle s p cfg).cards p with
    | some c2 =>
      obtain ⟨hc2mem, hc2peer, _⟩ :=
        nextDeckCard_spec (end_round shuffle s p cfg).cards p c2 hnd2
      exact flip_inv (end_round shuffle s p cfg) p c2
        cfg.priceTheoryCardLifetimeTicks her.1 her.2 hc2mem hc2peer
    | none => exact her.1

/-- `ensure_initialized` preserves the invariant (a new deck is all deck
rows). -/
theorem init_peer_inv (shuffle : Nat → List Int → List Int) (s : PTState)
    (p : String) (cfg : FeesCfg) (h : PTInv s) :
    PTInv (init_peer shuffle s p cfg) := by
  unfold init_peer
  by_cases h1 : s.cards.any (fun c => c.counterpartyNodeId == p)
  · rw [if_pos h1]
    exact h
  · rw [if_neg h1]
    exact (create_deck_inv shuffle _ p 0 cfg ⟨h.1, h.2⟩).1

/-- The per-peer tick body preserves the invariant. -/
theorem tickPeer_inv (shuffle : Nat → List Int → List Int) (cfg : FeesCfg)
    (s : PTState) (p : String) (h : PTInv s) :
    PTInv (tickPeer shuffle cfg s p) := by
  unfold tickPeer
  have h1 := init_peer_inv shuffle s p cfg h
  set s1 := init_peer shuffle s p cfg with hs1
  clear_value s1
  dsimp only
  cases hfp : findInPlay s1.cards p with
  | some c =>
    dsimp only
    split_ifs with hlt
    · have hd := discard_inv s1 p c h1 hfp
      exact draw_card_inv shuffle _ p cfg hd.1 hd.2
    · obtain ⟨⟨hbound, hnd⟩, hcount⟩ := h1
      refine ⟨cardIdsOk_updateById s1 c.id decCard (fun d => rfl)
        ⟨hbound, hnd⟩, ?_⟩
      intro p2
      rw [show inPlayCount (updateById s1.cards c.id decCard) p2
          = (updateById s1.cards c.id decCard).countP (isInPlayFor p2) from rfl]
      rw [countP_updateById_congr s1.cards c.id decCard (isInPlayFor p2)
        (fun a _ _ => by simp [isInPlayFor, decCard])]
      exact hcount p2
  | none =>
    exact draw_card_inv shuffle s1 p cfg h1 (findInPlay_none_count s1.cards p hfp)

/-- `update_tick` preserves the invariant for every peer set. -/
theorem update_tick_inv (shuffle : Nat → List Int → List Int) (cfg : FeesCfg) :
    ∀ (peers : List String) (s : PTState), PTInv s →
      PTInv (update_tick shuffle s peers cfg)
  | [], s, h => h
  | p :: rest, s, h => by
    rw [update_tick, List.foldl_cons]
    exact update_tick_inv shuffle cfg rest (tickPeer shuffle cfg s p)
      (tickPeer_inv shuffle cfg s p h)

/-- The empty database satisfies the invariant. -/
theorem ptInit_inv : PTInv ptInit := by
  refine ⟨⟨?_, ?_⟩, ?_⟩ <;> simp [ptInit, inPlayCount]

/-- A fold of `update_tick` calls preserves the invariant. -/
theorem foldl_update_tick_inv :
    ∀ (calls : List (List String × FeesCfg × (Nat → List Int → List Int)))
      (s : PTState), PTInv s →
      PTInv (calls.foldl (fun s args => update_tick args.2.2 s args.1 args.2.1) s)
  | [], _, h => h
  | c :: t, s, h => by
    rw [List.foldl_cons]
    exact foldl_update_tick_inv t _ (update_tick_inv c.2.2 c.2.1 c.1 s h)

/-- Every state reachable by a sequence of `update_tick` calls from the
empty database satisfies the invariant. -/
theorem runTicks_inv
    (calls : List (List String × FeesCfg × (Nat → List Int → List Int))) :
    PTInv (runTicks calls) :=
  foldl_update_tick_inv calls ptInit ptInit_inv

/-! ### Claim C2 -/

/-- Claim C2: for every peer `P` and every sequence of `update_tick`
calls (each with its own connected-peer set, configuration and shuffle
randomness, covering card draw, lifetime expiry and discard, and
end-of-round deck rebuild) starting from the empty database, the number
of `price_theory_cards` rows with `counterparty_node_id = P` and
`position = in-play` is 0 or 1 after each call. -/
theorem c2_in_play_count_le_one
    (calls : List (List String × FeesCfg × (Nat → List Int → List Int)))
    (p : String) :
    inPlayCount (runTicks calls).cards p = 0
      ∨ inPlayCount (runTicks calls).cards p = 1 := by
  have h := (runTicks_inv calls).2 p
  omega
